import Mathlib

/-!
Verification of the BB84 quantum-secure-chat simulation.

This file gives a shallow embedding, in Lean 4, of the core of the
repository (the BB84 protocol engine `src/bb84/protocol.py`, the key
manager `src/crypto/key_manager.py`, the binary conversion utilities
`src/crypto/utils.py`, the wire framing `src/network/protocol.py` and
the interactive exchange coordinator `src/chat/manager.py`), together
with theorems settling the frozen claims about that code.

Conventions of the embedding:
* Python `int` values are `Nat`/`Int`; Python `float` fractions and rates
  are modelled as `ℚ` (the only floats involved are exact small ratios).
* Python byte strings are `List Nat` with entries below 256; text strings
  are lists of Unicode code points.
* Randomness (`secrets.randbelow`, `random.randint`, `random.sample`) is
  modelled by passing the drawn values in as explicit parameters; theorems
  quantify over all draws satisfying the documented contract of the
  drawing function (e.g. `random.sample(range(n), k)` returns `k`
  distinct values below `n`).
* Code that can raise an exception is embedded as an `Option`-valued
  function (`none` = raise); stateful methods become explicit
  state-passing functions.
-/

namespace BB84

/-- Basis constant `RECTILINEAR = 0` from `config/constants.py`. -/
def RECTILINEAR : Nat := 0

/-- Basis constant `DIAGONAL = 1` from `config/constants.py`. -/
def DIAGONAL : Nat := 1

/-- Polarization-angle table `ANGLES` from `config/constants.py`: a dict
keyed on `(bit, basis)`; lookup of a key outside the table is a Python
`KeyError`, modelled by `none`. -/
def ANGLES (bit basis : Nat) : Option Nat :=
  if bit = 0 ∧ basis = RECTILINEAR then some 0
  else if bit = 1 ∧ basis = RECTILINEAR then some 90
  else if bit = 0 ∧ basis = DIAGONAL then some 45
  else if bit = 1 ∧ basis = DIAGONAL then some 135
  else none

/-- Setting `NUM_PHOTONS = 256` from `config/settings.py`. -/
def NUM_PHOTONS : Nat := 256

/-- Setting `MIN_KEY_LENGTH = 32` from `config/settings.py`. -/
def MIN_KEY_LENGTH : Nat := 32

/-- Setting `ERROR_THRESHOLD = 0.10` from `config/settings.py`. -/
def ERROR_THRESHOLD : ℚ := 1 / 10

/-- Setting `SAMPLE_FRACTION = 0.10` from `config/settings.py`. -/
def SAMPLE_FRACTION : ℚ := 1 / 10

/-- Setting `KEY_ROTATION_THRESHOLD = 0.75` from `config/settings.py`. -/
def KEY_ROTATION_THRESHOLD : ℚ := 3 / 4

/-- Photon record from `src/bb84/photon.py` (`bit`, `basis`, `angle`; the
`timestamp` field is wall-clock time and plays no role in the protocol). -/
structure Photon where
  bit : Nat
  basis : Nat
  angle : Nat
  deriving Repr, DecidableEq

/-- Function `encode_photon` from `src/bb84/protocol.py`: looks up the
angle in the `ANGLES` dict (a `KeyError` for arguments outside
`{0,1} × {0,1}` is modelled by `none`) and builds the photon. -/
def encode_photon (bit basis : Nat) : Option Photon :=
  (ANGLES bit basis).map (fun angle => { bit := bit, basis := basis, angle := angle })

/-- Function `encode_photons` from `src/bb84/protocol.py`:
`[encode_photon(b, ba) for b, ba in zip(bits, bases)]`. -/
def encode_photons (bits bases : List Nat) : Option (List Photon) :=
  (bits.zip bases).mapM (fun p => encode_photon p.1 p.2)

/-- Function `measure_photon` from `src/bb84/protocol.py`.  When the
measurement basis matches the photon's basis the encoded bit is returned;
otherwise Python draws `random.randint(0, 1)`, modelled by the explicit
`coin` argument. -/
def measure_photon (photon : Photon) (measurement_basis : Nat) (coin : Nat) : Nat :=
  if photon.basis = measurement_basis then photon.bit else coin

/-- Function `measure_photons` from `src/bb84/protocol.py`: measures the
zipped photon/basis list; the independent coin drawn for position `i` is
`coins i`. -/
def measure_photons (photons : List Photon) (bases : List Nat) (coins : Nat → Nat) : List Nat :=
  (photons.zip bases).enum.map (fun p => measure_photon p.2.1 p.2.2 (coins p.1))

/-- Function `find_matching_positions` from `src/bb84/protocol.py`:
`[i for i in range(len(alice_bases)) if alice_bases[i] == bob_bases[i]]`. -/
def find_matching_positions (alice_bases bob_bases : List Nat) : List Nat :=
  (List.range alice_bases.length).filter
    (fun i => alice_bases.getD i 0 == bob_bases.getD i 0)

/-- Function `extract_key_bits` from `src/bb84/protocol.py`:
`[bits[i] for i in positions]`. -/
def extract_key_bits (bits : List Nat) (positions : List Nat) : List Nat :=
  positions.map (fun i => bits.getD i 0)

/-- Sample size `max(1, int(n * sample_fraction))` computed by
`check_errors` in `src/bb84/protocol.py` (for a nonnegative product,
Python `int()` truncation is the floor). -/
def sample_size (n : Nat) (sample_fraction : ℚ) : Nat :=
  max 1 (⌊(n : ℚ) * sample_fraction⌋).toNat

/-- Contract of Python's `random.sample(range(n), k)` for `k ≤ n`: it
returns `k` distinct values, all below `n`.  Theorems about code that
samples quantify over every drawing function satisfying this. -/
def SampleDrawOK (draw : Nat → Nat → List Nat) : Prop :=
  ∀ n k, k ≤ n → (draw n k).length = k ∧ (draw n k).Nodup ∧ ∀ i ∈ draw n k, i < n

/-- Function `check_errors` from `src/bb84/protocol.py`.  The call
`random.sample(range(n), min(sample_size, n))` is modelled by the
explicit drawing oracle `sample_draw` (theorems quantify over every
oracle satisfying `SampleDrawOK`); Python's `sorted` is modelled by
insertion sort.  Returns
`(error_rate, sample_positions, alice_sample, bob_sample)`. -/
def check_errors (alice_key bob_key : List Nat) (sample_fraction : ℚ)
    (sample_draw : Nat → Nat → List Nat) : ℚ × List Nat × List Nat × List Nat :=
  let n := alice_key.length
  let sample_positions :=
    (sample_draw n (min (sample_size n sample_fraction) n)).insertionSort (· ≤ ·)
  let alice_sample := sample_positions.map (fun i => alice_key.getD i 0)
  let bob_sample := sample_positions.map (fun i => bob_key.getD i 0)
  let errors := ((alice_sample.zip bob_sample).filter (fun p => p.1 != p.2)).length
  let error_rate : ℚ :=
    if sample_positions = [] then 0 else (errors : ℚ) / (sample_positions.length : ℚ)
  (error_rate, sample_positions, alice_sample, bob_sample)

/-- Function `remove_sample_bits` from `src/bb84/protocol.py`:
`[bit for i, bit in enumerate(key) if i not in sample_set]`. -/
def remove_sample_bits (key : List Nat) (sample_positions : List Nat) : List Nat :=
  (key.enum.filter (fun p => !(sample_positions.contains p.1))).map Prod.snd

end BB84

namespace BB84

/-- Result dict of `bb84_simulate` in `src/bb84/protocol.py`, one field
per key stored in `result`. -/
structure SimResult where
  alice_bits : List Nat
  alice_bases : List Nat
  photons : List Photon
  eve_active : Bool
  eve_bits : Option (List Nat)
  eve_bases : Option (List Nat)
  transmitted_photons : List Photon
  bob_bases : List Nat
  bob_bits : List Nat
  matching_positions : List Nat
  match_rate : ℚ
  alice_raw_key : List Nat
  bob_raw_key : List Nat
  error_rate : ℚ
  sample_positions : List Nat
  alice_sample : List Nat
  bob_sample : List Nat
  eavesdropper_detected : Bool
  alice_final_key : List Nat
  bob_final_key : List Nat
  final_key_length : Nat
  key_too_short : Bool

/-- Function `bb84_simulate` from `src/bb84/protocol.py`.  The random
draws made inside the Python function are passed in explicitly:
`alice_bits`, `alice_bases`, `bob_bases` model the `generate_random_bits`
and `generate_random_bases` outputs (lists of `num_photons` bits),
`coins i` the `random.randint(0, 1)` drawn when Bob measures photon `i`
in a mismatched basis, and `sample_draw` the `random.sample` oracle used
inside `check_errors`.  `intercept` models `eve_instance.intercept` when
`eve_intercept` is true.  `none` models an uncaught exception (a
`KeyError` from the `ANGLES` lookup, or the `ZeroDivisionError` of
`match_rate` when `num_photons == 0`). -/
def bb84_simulate (num_photons : Nat) (alice_bits alice_bases bob_bases : List Nat)
    (coins : Nat → Nat) (sample_draw : Nat → Nat → List Nat) (eve_intercept : Bool)
    (intercept : Option (List Photon → List Photon × List Nat × List Nat)) :
    Option SimResult := do
  let photons ← encode_photons alice_bits alice_bases
  let (transmitted, eve_bits, eve_bases) :=
    match eve_intercept, intercept with
    | true, some f =>
        let r := f photons
        (r.1, some r.2.1, some r.2.2)
    | _, _ => (photons, none, none)
  let bob_bits := measure_photons transmitted bob_bases coins
  let matching_positions := find_matching_positions alice_bases bob_bases
  if num_photons = 0 then none else
  let match_rate : ℚ := (matching_positions.length : ℚ) / (num_photons : ℚ)
  let alice_raw_key := extract_key_bits alice_bits matching_positions
  let bob_raw_key := extract_key_bits bob_bits matching_positions
  let (error_rate, sample_positions, alice_sample, bob_sample) :=
    check_errors alice_raw_key bob_raw_key SAMPLE_FRACTION sample_draw
  let alice_final_key := remove_sample_bits alice_raw_key sample_positions
  let bob_final_key := remove_sample_bits bob_raw_key sample_positions
  some
    { alice_bits := alice_bits
      alice_bases := alice_bases
      photons := photons
      eve_active := eve_intercept
      eve_bits := eve_bits
      eve_bases := eve_bases
      transmitted_photons := transmitted
      bob_bases := bob_bases
      bob_bits := bob_bits
      matching_positions := matching_positions
      match_rate := match_rate
      alice_raw_key := alice_raw_key
      bob_raw_key := bob_raw_key
      error_rate := error_rate
      sample_positions := sample_positions
      alice_sample := alice_sample
      bob_sample := bob_sample
      eavesdropper_detected := decide (ERROR_THRESHOLD < error_rate)
      alice_final_key := alice_final_key
      bob_final_key := bob_final_key
      final_key_length := alice_final_key.length
      key_too_short := decide (alice_final_key.length < MIN_KEY_LENGTH) }

end BB84

namespace BB84

/-! SHA-256 and HMAC-SHA256, modelling the Python standard-library
`hashlib.sha256` and `hmac.new(key, msg, hashlib.sha256)` calls made by
`src/crypto/key_manager.py`.  Byte strings are lists of naturals below
256; 32-bit words are naturals reduced modulo `2 ^ 32`. -/

/-- Reduction of a natural to a 32-bit word. -/
def w32 (x : Nat) : Nat := x % 4294967296

/-- Right rotation of a 32-bit word by `k` positions. -/
def rotr32 (k x : Nat) : Nat := (x >>> k) ||| w32 (x <<< (32 - k))

/-- SHA-256 round constants `K[0..63]` of FIPS 180-4 (rendered in
decimal). -/
def shaK : List Nat :=
  [1116352408, 1899447441, 3049323471, 3921009573, 961987163,
   1508970993, 2453635748, 2870763221, 3624381080, 310598401,
   607225278, 1426881987, 1925078388, 2162078206, 2614888103,
   3248222580, 3835390401, 4022224774, 264347078, 604807628,
   770255983, 1249150122, 1555081692, 1996064986, 2554220882,
   2821834349, 2952996808, 3210313671, 3336571891, 3584528711,
   113926993, 338241895, 666307205, 773529912, 1294757372,
   1396182291, 1695183700, 1986661051, 2177026350, 2456956037,
   2730485921, 2820302411, 3259730800, 3345764771, 3516065817,
   3600352804, 4094571909, 275423344, 430227734, 506948616,
   659060556, 883997877, 958139571, 1322822218, 1537002063,
   1747873779, 1955562222, 2024104815, 2227730452, 2361852424,
   2428436474, 2756734187, 3204031479, 3329325298]

/-- Working state of the SHA-256 compression function. -/
structure Sha256State where
  a : Nat
  b : Nat
  c : Nat
  d : Nat
  e : Nat
  f : Nat
  g : Nat
  h : Nat

/-- Initial SHA-256 hash value `H[0..7]` of FIPS 180-4 (rendered in
decimal). -/
def sha256InitState : Sha256State :=
  { a := 1779033703, b := 3144134277, c := 1013904242, d := 2773480762,
    e := 1359893119, f := 2600822924, g := 528734635, h := 1541459225 }

/-- SHA-256 function `Σ₀`. -/
def bigS0 (x : Nat) : Nat := rotr32 2 x ^^^ rotr32 13 x ^^^ rotr32 22 x

/-- SHA-256 function `Σ₁`. -/
def bigS1 (x : Nat) : Nat := rotr32 6 x ^^^ rotr32 11 x ^^^ rotr32 25 x

/-- SHA-256 function `σ₀`. -/
def smallS0 (x : Nat) : Nat := rotr32 7 x ^^^ rotr32 18 x ^^^ (x >>> 3)

/-- SHA-256 function `σ₁`. -/
def smallS1 (x : Nat) : Nat := rotr32 17 x ^^^ rotr32 19 x ^^^ (x >>> 10)

/-- SHA-256 choice function (the complement is taken within 32 bits). -/
def chF (x y z : Nat) : Nat := (x &&& y) ^^^ ((x ^^^ 0xffffffff) &&& z)

/-- SHA-256 majority function. -/
def majF (x y z : Nat) : Nat := (x &&& y) ^^^ (x &&& z) ^^^ (y &&& z)

/-- Big-endian serialization of `x` into `k` bytes (the low `8 * k` bits,
most significant byte first); models `int.to_bytes(k, 'big')` and the
word serialization inside SHA-256. -/
def beBytes (k x : Nat) : List Nat :=
  match k with
  | 0 => []
  | k + 1 => beBytes k (x / 256) ++ [x % 256]

/-- Big-endian 32-bit words of a byte string (a trailing group of fewer
than 4 bytes is dropped; blocks here always have 64 bytes). -/
def bytesToWordsBE : List Nat → List Nat
  | b0 :: b1 :: b2 :: b3 :: rest =>
      (((b0 * 256 + b1) * 256 + b2) * 256 + b3) :: bytesToWordsBE rest
  | _ => []

/-- Message-schedule extension: appends one word `W[t]` per step. -/
def scheduleRounds : Nat → List Nat → List Nat
  | 0, w => w
  | n + 1, w =>
      scheduleRounds n
        (w ++ [w32 (smallS1 (w.getD (w.length - 2) 0) + w.getD (w.length - 7) 0 +
                    smallS0 (w.getD (w.length - 15) 0) + w.getD (w.length - 16) 0)])

/-- Full 64-word message schedule of one 64-byte block. -/
def schedule (block : List Nat) : List Nat := scheduleRounds 48 (bytesToWordsBE block)

/-- One SHA-256 round, consuming a pair of round constant and schedule
word. -/
def sha256Round (s : Sha256State) (kw : Nat × Nat) : Sha256State :=
  let t1 := w32 (s.h + bigS1 s.e + chF s.e s.f s.g + kw.1 + kw.2)
  let t2 := w32 (bigS0 s.a + majF s.a s.b s.c)
  { a := w32 (t1 + t2), b := s.a, c := s.b, d := s.c,
    e := w32 (s.d + t1), f := s.e, g := s.f, h := s.g }

/-- SHA-256 compression of one 64-byte block into the running state. -/
def sha256Compress (s : Sha256State) (block : List Nat) : Sha256State :=
  let t := (shaK.zip (schedule block)).foldl sha256Round s
  { a := w32 (s.a + t.a), b := w32 (s.b + t.b), c := w32 (s.c + t.c),
    d := w32 (s.d + t.d), e := w32 (s.e + t.e), f := w32 (s.f + t.f),
    g := w32 (s.g + t.g), h := w32 (s.h + t.h) }

/-- SHA-256 padding: a 0x80 byte, zeros up to 56 mod 64, and the bit
length as 8 big-endian bytes. -/
def sha256Pad (msg : List Nat) : List Nat :=
  msg ++ [0x80] ++ List.replicate ((120 - (msg.length + 1) % 64) % 64) 0 ++
    beBytes 8 (8 * msg.length)

/-- Folding the compression function over consecutive 64-byte blocks. -/
def sha256Blocks (s : Sha256State) (bytes : List Nat) : Sha256State :=
  match bytes with
  | [] => s
  | b :: rest =>
      sha256Blocks (sha256Compress s ((b :: rest).take 64)) ((b :: rest).drop 64)
termination_by bytes.length
decreasing_by simp [List.length_drop]; omega

/-- Serialization of the final state as the 32-byte digest. -/
def stateBytes (s : Sha256State) : List Nat :=
  beBytes 4 s.a ++ beBytes 4 s.b ++ beBytes 4 s.c ++ beBytes 4 s.d ++
  beBytes 4 s.e ++ beBytes 4 s.f ++ beBytes 4 s.g ++ beBytes 4 s.h

/-- SHA-256 digest of a byte string, modelling
`hashlib.sha256(m).digest()`. -/
def sha256 (msg : List Nat) : List Nat :=
  stateBytes (sha256Blocks sha256InitState (sha256Pad msg))

/-- HMAC-SHA256 (RFC 2104) over byte strings, modelling
`hmac.new(key, msg, hashlib.sha256).digest()`. -/
def hmacSha256 (key msg : List Nat) : List Nat :=
  let k0 := if 64 < key.length then sha256 key else key
  let kpad := k0 ++ List.replicate (64 - k0.length) 0
  sha256 ((kpad.map (fun b => b ^^^ 0x5c)) ++
    sha256 ((kpad.map (fun b => b ^^^ 0x36)) ++ msg))

/-- Big-endian serialization has exactly `k` bytes. -/
theorem beBytes_length (k x : Nat) : (beBytes k x).length = k := by
  induction k generalizing x with
  | zero => rfl
  | succ k ih => simp [beBytes, ih]

/-- SHA-256 digests have 32 bytes (needed below for the termination of
the key-expansion loop). -/
theorem sha256_length (msg : List Nat) : (sha256 msg).length = 32 := by
  simp [sha256, stateBytes, beBytes_length]

/-- HMAC-SHA256 digests have 32 bytes. -/
theorem hmacSha256_length (key msg : List Nat) : (hmacSha256 key msg).length = 32 :=
  sha256_length _

end BB84

namespace BB84

/-! Embedding of `src/crypto/key_manager.py`. -/

/-- Constant `EXPANDED_KEY_BITS = 1024` from `src/crypto/key_manager.py`. -/
def EXPANDED_KEY_BITS : Nat := 1024

/-- ASCII decimal digits of a natural number, modelling Python `str(b)`
for a nonnegative integer, followed by `.encode()`. -/
def strBytes (n : Nat) : List Nat :=
  if h : n < 10 then [n + 48]
  else strBytes (n / 10) ++ [n % 10 + 48]
decreasing_by exact Nat.div_lt_self (by omega) (by omega)

/-- Bits of one byte, most significant first, as produced by the inner
loop `for i in range(7, -1, -1): (byte >> i) & 1` of `expand_key_bits`. -/
def byteBits (b : Nat) : List Nat :=
  [b >>> 7 &&& 1, b >>> 6 &&& 1, b >>> 5 &&& 1, b >>> 4 &&& 1,
   b >>> 3 &&& 1, b >>> 2 &&& 1, b >>> 1 &&& 1, b &&& 1]

/-- Bit list produced from a byte string by the block-consuming loops of
`expand_key_bits`. -/
theorem length_flatMap_byteBits (l : List Nat) :
    (l.flatMap byteBits).length = 8 * l.length := by
  induction l with
  | nil => rfl
  | cons b l ih => simp [byteBits, ih]; omega

/-- While-loop of `expand_key_bits` in `src/crypto/key_manager.py`: each
iteration HMACs the previous block together with a 4-byte big-endian
counter and appends the block's bits until `length` bits are collected
(the nested `break` statements make the last block contribute only the
bits still needed). -/
def expand_loop (seed_bytes : List Nat) (length counter : Nat) (prev acc : List Nat) :
    List Nat :=
  if h : acc.length < length then
    let block := hmacSha256 seed_bytes (prev ++ beBytes 4 counter)
    expand_loop seed_bytes length (counter + 1) block
      (acc ++ (block.flatMap byteBits).take (length - acc.length))
  else acc
termination_by length - acc.length
decreasing_by
  simp only [List.length_append, List.length_take, length_flatMap_byteBits,
    hmacSha256_length]
  omega

/-- Function `expand_key_bits` from `src/crypto/key_manager.py`: hashes
the ASCII string of the seed bits into the HMAC key, then stretches it
blockwise into `length` keystream bits. -/
def expand_key_bits (seed_bits : List Nat) (length : Nat) : List Nat :=
  (expand_loop (sha256 (seed_bits.flatMap strBytes)) length 0 [] []).take length

/-- Class `EncryptionKey` from `src/crypto/key_manager.py` (fields `id`,
a random display handle, and `generated_at`, a wall-clock timestamp, are
omitted: no protocol behaviour depends on them). -/
structure EncryptionKey where
  seed_bits : List Nat
  seed_length : Nat
  bits : List Nat
  length : Nat
  bits_used : Nat
  error_rate : ℚ

/-- Constructor `EncryptionKey.__init__`: expands the seed into the
keystream and starts the cursor at 0. -/
def mkEncryptionKey (key_bits : List Nat) (error_rate : ℚ) : EncryptionKey :=
  let bits := expand_key_bits key_bits EXPANDED_KEY_BITS
  { seed_bits := key_bits, seed_length := key_bits.length, bits := bits,
    length := bits.length, bits_used := 0, error_rate := error_rate }

/-- Method `EncryptionKey.consume`: raises `KeyExhaustedError` (`none`)
when `bits_used + num_bits > length`, otherwise returns the slice
`bits[bits_used : bits_used + num_bits]` and advances the cursor.  The
updated (or, on failure, unchanged) key is returned alongside. -/
def EncryptionKey.consume (k : EncryptionKey) (num_bits : Nat) :
    Option (List Nat) × EncryptionKey :=
  if k.length < k.bits_used + num_bits then (none, k)
  else (some ((k.bits.drop k.bits_used).take num_bits),
        { k with bits_used := k.bits_used + num_bits })

/-- Method `EncryptionKey.remaining`. -/
def EncryptionKey.remaining (k : EncryptionKey) : Nat := k.length - k.bits_used

/-- Method `EncryptionKey.usage_percentage`. -/
def EncryptionKey.usage_percentage (k : EncryptionKey) : ℚ :=
  if k.length = 0 then 100 else ((k.bits_used : ℚ) / (k.length : ℚ)) * 100

/-- Method `EncryptionKey.needs_rotation`. -/
def EncryptionKey.needs_rotation (k : EncryptionKey) : Bool :=
  decide (KEY_ROTATION_THRESHOLD * 100 ≤ k.usage_percentage)

/-- Metadata dict archived into `key_history` by `KeyManager.set_key`
(the `id` and `generated_at` strings are again omitted). -/
structure KeyMeta where
  length : Nat
  bits_used : Nat
  error_rate : ℚ

/-- Class `KeyManager` from `src/crypto/key_manager.py`. -/
structure KeyManager where
  current_key : Option EncryptionKey
  key_history : List KeyMeta
  keys_generated : Nat
  keys_compromised : Nat

/-- Constructor `KeyManager.__init__`. -/
def KeyManager.init : KeyManager :=
  { current_key := none, key_history := [], keys_generated := 0, keys_compromised := 0 }

/-- Method `KeyManager.set_key`: archives the previous key's metadata,
installs a freshly constructed `EncryptionKey` and returns it (state
passing: the updated manager is returned alongside the new key). -/
def KeyManager.set_key (m : KeyManager) (key_bits : List Nat) (error_rate : ℚ) :
    KeyManager × EncryptionKey :=
  let hist :=
    match m.current_key with
    | some k => m.key_history ++ [{ length := k.length, bits_used := k.bits_used,
                                    error_rate := k.error_rate : KeyMeta }]
    | none => m.key_history
  let newkey := mkEncryptionKey key_bits error_rate
  ({ m with current_key := some newkey, key_history := hist,
            keys_generated := m.keys_generated + 1 }, newkey)

/-- Method `KeyManager.consume_bits`: raises `KeyExhaustedError`
(`none`) when no current key is held, otherwise delegates to
`EncryptionKey.consume`. -/
def KeyManager.consume_bits (m : KeyManager) (num_bits : Nat) :
    Option (List Nat) × KeyManager :=
  match m.current_key with
  | none => (none, m)
  | some k =>
      let r := k.consume num_bits
      (r.1, { m with current_key := some r.2 })

/-- Method `KeyManager.needs_rotation`. -/
def KeyManager.needs_rotation (m : KeyManager) : Bool :=
  match m.current_key with
  | none => true
  | some k => k.needs_rotation

/-- Method `KeyManager.mark_compromised`: increments the compromise
counter and drops the current key. -/
def KeyManager.mark_compromised (m : KeyManager) : KeyManager :=
  { m with keys_compromised := m.keys_compromised + 1, current_key := none }

/-- Method `KeyManager.clear`: zeroes the key bits and drops the key
(after the reference is dropped only the absence of a key is
observable). -/
def KeyManager.clear (m : KeyManager) : KeyManager :=
  { m with current_key := none }

end BB84

namespace BB84

/-! Embedding of `src/crypto/utils.py`.  A Python string is modelled as
the list of the Unicode code points of its characters. -/

/-- Binary digits of a natural number, most significant first, with no
leading zeros (`0` giving the single digit `0`), as Python `format(n, 'b')`
produces them. -/
def binDigits (n : Nat) : List Nat :=
  if h : n < 2 then [n] else binDigits (n / 2) ++ [n % 2]
decreasing_by exact Nat.div_lt_self (by omega) (by omega)

/-- Bits of one character as produced by `format(ord(char), '08b')`:
the binary digits, zero-padded on the left to a width of at least 8
(a code point of 256 or more yields more than 8 bits). -/
def char_bits (c : Nat) : List Nat :=
  List.replicate (8 - (binDigits c).length) 0 ++ binDigits c

/-- Function `text_to_binary` from `src/crypto/utils.py`. -/
def text_to_binary (text : List Nat) : List Nat :=
  text.flatMap char_bits

/-- Value of a list of binary digits, most significant first, modelling
`int(''.join(str(b) for b in byte), 2)` on a list of bits. -/
def bits_val (bits : List Nat) : Nat :=
  bits.foldl (fun acc b => 2 * acc + b) 0

/-- Function `binary_to_text` from `src/crypto/utils.py`: consumes the
bit list in groups of 8, breaking off at a trailing group of fewer than
8 bits. -/
def binary_to_text (bits : List Nat) : List Nat :=
  if h : bits.length < 8 then []
  else bits_val (bits.take 8) :: binary_to_text (bits.drop 8)
termination_by bits.length
decreasing_by simp [List.length_drop]; omega

end BB84

namespace BB84

/-! Embedding of `src/network/protocol.py`.  The JSON payload is
modelled at its serialized boundary: the `payload_bytes` parameter
stands for `json.dumps(payload).encode('utf-8')`. -/

/-- Header size of the `!BIi` struct format: 1 + 4 + 4 bytes. -/
def HEADER_SIZE : Nat := 9

/-- Big-endian value of a byte string, modelling `struct.unpack` of an
unsigned big-endian field. -/
def beVal (bytes : List Nat) : Nat :=
  bytes.foldl (fun acc b => 256 * acc + b) 0

/-- Function `pack_message` from `src/network/protocol.py` with an
explicit sequence number (`seq=None` draws from the global counter,
which callers of the claim always let happen with a concrete value).
`struct.pack('!BIi', ...)` raises (`none`) unless `msg_type` fits an
unsigned byte, the payload length fits 4 unsigned bytes and `seq` fits a
signed 32-bit integer; the sequence field is two's complement. -/
def pack_message (msg_type : Nat) (payload_bytes : List Nat) (seq : Int) :
    Option (List Nat) :=
  if msg_type < 256 ∧ payload_bytes.length < 4294967296 ∧
      -2147483648 ≤ seq ∧ seq < 2147483648 then
    some ([msg_type] ++ beBytes 4 payload_bytes.length ++
      beBytes 4 ((seq + 4294967296).toNat % 4294967296) ++ payload_bytes)
  else none

/-- Function `unpack_header` from `src/network/protocol.py`: raises
`ProtocolError` (`none`) on fewer than `HEADER_SIZE` bytes, otherwise
reads the unsigned type byte, the unsigned big-endian payload length and
the signed (two's complement) big-endian sequence number. -/
def unpack_header (data : List Nat) : Option (Nat × Nat × Int) :=
  if data.length < HEADER_SIZE then none
  else
    let msg_type := data.getD 0 0
    let payload_len := beVal ((data.drop 1).take 4)
    let u := beVal ((data.drop 5).take 4)
    let seq : Int := if u < 2147483648 then (u : Int) else (u : Int) - 4294967296
    some (msg_type, payload_len, seq)

end BB84

namespace BB84

/-! Embedding of the Alice side of the interactive key exchange,
`ChatManager.interactive_key_exchange_alice` in `src/chat/manager.py`.
Console rendering and network sends go to external collaborators and
carry no protocol state; every early `return` of the Python method that
leaves the key managers untouched is modelled by `none`.  The manually
entered bits and bases and Bob's received bases are parameters, as is
the sampling oracle used by `check_errors`.  `num` models the
`INTERACTIVE_NUM_PHOTONS` constant (used only for the displayed match
rate, whose computation would divide by zero for `num = 0`). -/

/-- Outcome of a completed interactive exchange on Alice's side: both
key managers with the final key installed, plus the exchanged data. -/
structure AliceExchangeResult where
  send_km : KeyManager
  recv_km : KeyManager
  final_key : List Nat
  error_rate : ℚ
  match_rate : ℚ

/-- Method `interactive_key_exchange_alice` from `src/chat/manager.py`:
reconciliates against Bob's bases, error-checks Alice's raw key against
itself, removes the sampled bits, and aborts (key managers untouched)
when fewer than 1 bits remain; otherwise installs the final key in both
key managers with error rate 0. -/
def interactive_key_exchange_alice (send_km recv_km : KeyManager) (num : Nat)
    (alice_bits alice_bases bob_bases : List Nat)
    (sample_draw : Nat → Nat → List Nat) : Option AliceExchangeResult :=
  let matching_positions := find_matching_positions alice_bases bob_bases
  if num = 0 then none
  else
    let match_rate : ℚ := (matching_positions.length : ℚ) / (num : ℚ)
    let alice_raw_key := extract_key_bits alice_bits matching_positions
    let r := check_errors alice_raw_key alice_raw_key SAMPLE_FRACTION sample_draw
    let alice_final_key := remove_sample_bits alice_raw_key r.2.1
    if alice_final_key.length < 1 then none
    else
      some { send_km := (send_km.set_key alice_final_key 0).1
             recv_km := (recv_km.set_key alice_final_key 0).1
             final_key := alice_final_key
             error_rate := 0
             match_rate := match_rate }

end BB84

namespace BB84

/-! Helper lemmas shared by the claim theorems. -/

/-- Membership in `find_matching_positions`: exactly the in-range indices
where the two basis lists agree. -/
theorem mem_find_matching_positions (basesA basesB : List Nat) (i : Nat) :
    i ∈ find_matching_positions basesA basesB ↔
      i < basesA.length ∧ basesA.getD i 0 = basesB.getD i 0 := by
  simp [find_matching_positions, List.mem_filter, List.mem_range]

/-- The positions returned by `find_matching_positions` are strictly
ascending. -/
theorem sorted_find_matching_positions (basesA basesB : List Nat) :
    (find_matching_positions basesA basesB).Sorted (· < ·) :=
  (List.pairwise_lt_range basesA.length).filter _

/-- Enumeration-filter-projection rewrite: filtering `enumerate` by a
predicate on the index and keeping the values equals mapping the lookup
over the filtered index range. -/
theorem enumFrom_filter_map_snd {α : Type _} (q : Nat → Bool) (d : α) :
    ∀ (l : List α) (n : Nat),
      ((l.enumFrom n).filter (fun p => q p.1)).map Prod.snd
        = ((List.range l.length).filter (fun j => q (j + n))).map (fun j => l.getD j d) := by
  intro l
  induction l with
  | nil => intro n; rfl
  | cons a t ih =>
      intro n
      simp only [List.enumFrom_cons, List.length_cons, List.range_succ_eq_map,
        List.filter_cons, Nat.zero_add, List.filter_map, List.map_map]
      by_cases hq : q n
      · simp only [hq, if_pos, List.map_cons, List.getD_cons_zero]
        refine congrArg (List.cons a) ?_
        rw [ih (n + 1)]
        simp [List.getD, List.map_map, Function.comp_def, Nat.succ_eq_add_one,
          List.get?_cons_succ, Nat.add_assoc, Nat.add_comm 1 n]
      · simp only [hq, Bool.false_eq_true, if_false]
        rw [ih (n + 1)]
        simp [List.getD, List.map_map, Function.comp_def, Nat.succ_eq_add_one,
          List.get?_cons_succ, Nat.add_assoc, Nat.add_comm 1 n]

/-- Rewriting `remove_sample_bits` as a lookup map over the ascending
list of kept indices. -/
theorem remove_sample_bits_eq_map (key sample_positions : List Nat) :
    remove_sample_bits key sample_positions
      = ((List.range key.length).filter (fun i => !(sample_positions.contains i))).map
          (fun i => key.getD i 0) := by
  have h := enumFrom_filter_map_snd (fun i => !(sample_positions.contains i)) 0 key 0
  simpa [remove_sample_bits, List.enum] using h

end BB84

namespace BB84

/-- Counting the kept indices: with distinct in-range sample positions,
filtering them out of `range n` leaves `n - |positions|` indices. -/
theorem length_filter_not_contains (n : Nat) (pos : List Nat)
    (hnd : pos.Nodup) (hlt : ∀ p ∈ pos, p < n) :
    ((List.range n).filter (fun i => !(pos.contains i))).length = n - pos.length := by
  have hsplit : ((List.range n).filter (fun i => pos.contains i)).length +
      ((List.range n).filter (fun i => !(pos.contains i))).length = n := by
    simp only [← List.countP_eq_length_filter]
    have h := List.length_eq_countP_add_countP (fun i => pos.contains i) (List.range n)
    rw [List.length_range] at h
    have hc : List.countP (fun a => decide (¬ pos.contains a = true)) (List.range n)
        = List.countP (fun i => !(pos.contains i)) (List.range n) :=
      List.countP_congr (fun a _ => by cases h' : pos.contains a <;> simp [h'])
    omega
  have hperm : List.Perm ((List.range n).filter (fun i => pos.contains i)) pos := by
    rw [List.perm_ext_iff_of_nodup ((List.nodup_range n).filter _) hnd]
    intro a
    simp only [List.mem_filter, List.mem_range, List.elem_iff]
    constructor
    · rintro ⟨_, h⟩; exact h
    · intro h; exact ⟨hlt a h, h⟩
  have hlen := hperm.length_eq
  omega

end BB84

namespace BB84

/-- Length of `remove_sample_bits` for distinct in-range positions. -/
theorem remove_sample_bits_length (key pos : List Nat)
    (hnd : pos.Nodup) (hlt : ∀ p ∈ pos, p < key.length) :
    (remove_sample_bits key pos).length = key.length - pos.length := by
  rw [remove_sample_bits_eq_map, List.length_map,
    length_filter_not_contains _ _ hnd hlt]

/-- C6: for equal-length basis lists, `find_matching_positions` returns
exactly the indices where the lists agree, in strictly ascending order,
and on the spec's example lists it returns `[0, 2, 3, 4]`. -/
theorem claim_C6_find_matching_positions :
    (∀ (basesA basesB : List Nat), basesA.length = basesB.length →
        (find_matching_positions basesA basesB).Sorted (· < ·) ∧
        ∀ i, i ∈ find_matching_positions basesA basesB ↔
          i < basesA.length ∧ basesA.getD i 0 = basesB.getD i 0) ∧
    find_matching_positions [0, 1, 0, 1, 1] [0, 0, 0, 1, 1] = [0, 2, 3, 4] := by
  refine ⟨fun basesA basesB _ => ⟨sorted_find_matching_positions _ _, fun i => mem_find_matching_positions _ _ i⟩, by decide⟩

/-- C6 witness: the general part of the claim applied to the example
lists. -/
theorem claim_C6_witness :
    (find_matching_positions [0, 1, 0, 1, 1] [0, 0, 0, 1, 1]).Sorted (· < ·) ∧
    ∀ i, i ∈ find_matching_positions [0, 1, 0, 1, 1] [0, 0, 0, 1, 1] ↔
      i < 5 ∧ [0, 1, 0, 1, 1].getD i 0 = [0, 0, 0, 1, 1].getD i 0 :=
  claim_C6_find_matching_positions.1 [0, 1, 0, 1, 1] [0, 0, 0, 1, 1] rfl

/-- C7: removing distinct in-range sample positions from a key keeps
exactly the bits at the unsampled positions, in their original relative
order (the map over the ascending list of kept indices), so the length
drops by exactly the number of sampled positions. -/
theorem claim_C7_remove_sample_bits :
    ∀ (key sample_positions : List Nat), sample_positions.Nodup →
      (∀ p ∈ sample_positions, p < key.length) →
      (remove_sample_bits key sample_positions).length
          = key.length - sample_positions.length ∧
      remove_sample_bits key sample_positions
          = ((List.range key.length).filter (fun i => !(sample_positions.contains i))).map
              (fun i => key.getD i 0) :=
  fun key pos hnd hlt =>
    ⟨remove_sample_bits_length key pos hnd hlt, remove_sample_bits_eq_map key pos⟩

/-- C7 witness: the claim applied to a concrete key and sample. -/
theorem claim_C7_witness :
    (remove_sample_bits [1, 0, 1, 1, 0] [1, 3]).length = 5 - 2 ∧
    remove_sample_bits [1, 0, 1, 1, 0] [1, 3]
        = ((List.range 5).filter (fun i => !([1, 3].contains i))).map
            (fun i => [1, 0, 1, 1, 0].getD i 0) :=
  claim_C7_remove_sample_bits [1, 0, 1, 1, 0] [1, 3] (by decide) (by decide)

/-- C2: `encode_photon` realizes the fixed angle table, and measuring an
encoded photon in the encoding basis returns the encoded bit for every
value of the mismatch coin. -/
theorem claim_C2_encode_measure :
    ((encode_photon 0 RECTILINEAR).map Photon.angle = some 0 ∧
     (encode_photon 1 RECTILINEAR).map Photon.angle = some 90 ∧
     (encode_photon 0 DIAGONAL).map Photon.angle = some 45 ∧
     (encode_photon 1 DIAGONAL).map Photon.angle = some 135) ∧
    ∀ (bit basis coin : Nat), bit < 2 → basis < 2 →
      (encode_photon bit basis).map (fun p => measure_photon p basis coin) = some bit := by
  refine ⟨⟨rfl, rfl, rfl, rfl⟩, ?_⟩
  intro b x coin hb hx
  interval_cases b <;> interval_cases x <;> rfl

/-- C2 witness: the matching-basis determinism applied at a concrete
bit, basis and coin. -/
theorem claim_C2_witness :
    (encode_photon 1 DIAGONAL).map (fun p => measure_photon p DIAGONAL 0) = some 1 :=
  claim_C2_encode_measure.2 1 DIAGONAL 0 (by decide) (by decide)

end BB84

namespace BB84

/-- Projection: the sample positions computed by `check_errors` are the
sorted `random.sample` draw of `min(sample_size, n)` positions. -/
theorem check_errors_sample_eq (keyA keyB : List Nat) (f : ℚ)
    (d : Nat → Nat → List Nat) :
    (check_errors keyA keyB f d).2.1
      = (d keyA.length (min (sample_size keyA.length f) keyA.length)).insertionSort
          (· ≤ ·) := rfl

/-- Projection: Alice's sample is the lookup of her key at the sample
positions. -/
theorem check_errors_alice_sample (keyA keyB : List Nat) (f : ℚ)
    (d : Nat → Nat → List Nat) :
    (check_errors keyA keyB f d).2.2.1
      = (check_errors keyA keyB f d).2.1.map (fun i => keyA.getD i 0) := rfl

/-- Projection: Bob's sample is the lookup of his key at the sample
positions. -/
theorem check_errors_bob_sample (keyA keyB : List Nat) (f : ℚ)
    (d : Nat → Nat → List Nat) :
    (check_errors keyA keyB f d).2.2.2
      = (check_errors keyA keyB f d).2.1.map (fun i => keyB.getD i 0) := rfl

/-- Projection: the error rate of `check_errors` is the mismatch count
over the sample size, guarded by the `if sample_positions else 0.0`. -/
theorem check_errors_rate (keyA keyB : List Nat) (f : ℚ)
    (d : Nat → Nat → List Nat) :
    (check_errors keyA keyB f d).1
      = if (check_errors keyA keyB f d).2.1 = [] then (0 : ℚ)
        else ((((check_errors keyA keyB f d).2.2.1.zip
                (check_errors keyA keyB f d).2.2.2).filter
                  (fun p => p.1 != p.2)).length : ℚ)
             / (((check_errors keyA keyB f d).2.1.length : Nat) : ℚ) := rfl

/-- Behaviour of the sample positions under the `random.sample`
contract: sorted, distinct, of size `min(sample_size, n)` and in range. -/
theorem check_errors_positions_spec (keyA keyB : List Nat) (f : ℚ)
    (d : Nat → Nat → List Nat) (hd : SampleDrawOK d) :
    (check_errors keyA keyB f d).2.1.Sorted (· ≤ ·) ∧
    (check_errors keyA keyB f d).2.1.Nodup ∧
    (check_errors keyA keyB f d).2.1.length
        = min (sample_size keyA.length f) keyA.length ∧
    ∀ i ∈ (check_errors keyA keyB f d).2.1, i < keyA.length := by
  obtain ⟨hlen, hnd, hbound⟩ :=
    hd keyA.length (min (sample_size keyA.length f) keyA.length) (min_le_right _ _)
  rw [check_errors_sample_eq]
  have hperm := List.perm_insertionSort (· ≤ ·)
    (d keyA.length (min (sample_size keyA.length f) keyA.length))
  exact ⟨List.sorted_insertionSort _ _, hperm.nodup_iff.mpr hnd,
    by rw [hperm.length_eq, hlen], fun i hi => hbound i (hperm.mem_iff.mp hi)⟩

/-- Floor bound used for the sample size: for a fraction at most 1 the
floor of `n * fraction` is at most `n`. -/
theorem toNat_floor_mul_le (n : Nat) (f : ℚ) (h1 : f ≤ 1) :
    (⌊(n : ℚ) * f⌋).toNat ≤ n := by
  rw [Int.toNat_le]
  calc ⌊(n : ℚ) * f⌋ ≤ ⌊(n : ℚ)⌋ := by
        apply Int.floor_le_floor
        nlinarith [Nat.cast_nonneg (α := ℚ) n]
    _ = n := Int.floor_natCast n

/-- Boolean inequality test agrees with the decidable proposition. -/
theorem bne_eq_decide_ne (a b : Nat) : (a != b) = decide (a ≠ b) := by
  by_cases h : a = b <;> simp [h]

/-- Concrete sampling function satisfying the `random.sample` contract,
used to witness theorems quantified over drawing oracles. -/
theorem range_sampleDrawOK : SampleDrawOK (fun _ k => List.range k) := by
  intro n k hk
  exact ⟨List.length_range k, List.nodup_range k,
    fun i hi => lt_of_lt_of_le (List.mem_range.mp hi) hk⟩

end BB84

namespace BB84

/-- C5: for equal-length keys and a fraction in [0, 1], under the
`random.sample` contract the sample positions are distinct, in-range and
strictly ascending with, for nonempty keys, exactly
`max(1, floor(n * fraction))` of them and an error rate equal to the
number of mismatched sampled bits divided by the sample size; empty keys
give empty outputs and error rate 0. -/
theorem claim_C5_check_errors :
    ∀ (keyA keyB : List Nat) (fraction : ℚ) (sample_draw : Nat → Nat → List Nat),
      keyA.length = keyB.length → 0 ≤ fraction → fraction ≤ 1 →
      SampleDrawOK sample_draw →
      (check_errors keyA keyB fraction sample_draw).2.1.Sorted (· < ·) ∧
      (∀ i ∈ (check_errors keyA keyB fraction sample_draw).2.1, i < keyA.length) ∧
      (1 ≤ keyA.length →
        (check_errors keyA keyB fraction sample_draw).2.1.length
          = max 1 (⌊(keyA.length : ℚ) * fraction⌋).toNat) ∧
      (1 ≤ keyA.length →
        (check_errors keyA keyB fraction sample_draw).1
          = ((((check_errors keyA keyB fraction sample_draw).2.2.1.zip
                (check_errors keyA keyB fraction sample_draw).2.2.2).filter
                  (fun p => decide (p.1 ≠ p.2))).length : ℚ)
            / (((check_errors keyA keyB fraction sample_draw).2.1.length : Nat) : ℚ)) ∧
      (keyA.length = 0 →
        check_errors keyA keyB fraction sample_draw = (0, [], [], [])) := by
  intro keyA keyB f d hlen h0 h1 hd
  obtain ⟨hsorted, hnd, hsize, hbound⟩ := check_errors_positions_spec keyA keyB f d hd
  refine ⟨hsorted.lt_of_le hnd, hbound, ?_, ?_, ?_⟩
  · intro hn
    rw [hsize]
    have hle : sample_size keyA.length f ≤ keyA.length := by
      have := toNat_floor_mul_le keyA.length f h1
      simp only [sample_size]
      omega
    rw [min_eq_left hle]
    rfl
  · intro hn
    have hpos : (check_errors keyA keyB f d).2.1 ≠ [] := by
      intro hnil
      have : (check_errors keyA keyB f d).2.1.length = 0 := by rw [hnil]; rfl
      rw [hsize] at this
      have hone : 1 ≤ sample_size keyA.length f := le_max_left 1 _
      omega
    rw [check_errors_rate, if_neg hpos]
    congr 2
    exact congrArg List.length (List.filter_congr (fun p _ => bne_eq_decide_ne p.1 p.2))
  · intro hn
    obtain rfl : keyA = [] := List.length_eq_zero.mp hn
    obtain rfl : keyB = [] := List.length_eq_zero.mp hlen.symm
    have hdr := (hd 0 (min (sample_size 0 f) 0) (min_le_right _ _)).1
    rw [min_eq_right (Nat.zero_le _)] at hdr
    have hnil : d 0 0 = [] := List.length_eq_zero.mp hdr
    simp only [check_errors, List.length_nil]
    rw [min_eq_right (Nat.zero_le _), hnil]
    rfl

/-- C5 witness: the claim applied to concrete keys, fraction 1/2 and the
canonical sampling function. -/
theorem claim_C5_witness :
    (check_errors [0, 1, 1] [0, 0, 1] (1 / 2) (fun _ k => List.range k)).2.1.Sorted
        (· < ·) ∧
    (∀ i ∈ (check_errors [0, 1, 1] [0, 0, 1] (1 / 2) (fun _ k => List.range k)).2.1,
        i < 3) ∧
    (1 ≤ 3 →
      (check_errors [0, 1, 1] [0, 0, 1] (1 / 2) (fun _ k => List.range k)).2.1.length
        = max 1 (⌊((3 : Nat) : ℚ) * (1 / 2)⌋).toNat) ∧
    (1 ≤ 3 →
      (check_errors [0, 1, 1] [0, 0, 1] (1 / 2) (fun _ k => List.range k)).1
        = ((((check_errors [0, 1, 1] [0, 0, 1] (1 / 2) (fun _ k => List.range k)).2.2.1.zip
              (check_errors [0, 1, 1] [0, 0, 1] (1 / 2) (fun _ k => List.range k)).2.2.2).filter
                (fun p => decide (p.1 ≠ p.2))).length : ℚ)
          / (((check_errors [0, 1, 1] [0, 0, 1] (1 / 2)
                (fun _ k => List.range k)).2.1.length : Nat) : ℚ)) ∧
    ((3 : Nat) = 0 →
      check_errors [0, 1, 1] [0, 0, 1] (1 / 2) (fun _ k => List.range k)
        = (0, [], [], [])) :=
  claim_C5_check_errors [0, 1, 1] [0, 0, 1] (1 / 2) (fun _ k => List.range k) rfl
    (by norm_num) (by norm_num) range_sampleDrawOK

end BB84

namespace BB84

/-- C3: `EncryptionKey.consume` fails exactly when the request exceeds
the remaining bits, otherwise returns the slice
`bits[bits_used : bits_used + n]` and advances the cursor by exactly
`n`; on failure the key is unchanged.  `KeyManager.consume_bits` fails
whenever no current key is held, in particular directly after
`mark_compromised`. -/
theorem claim_C3_consume :
    (∀ (k : EncryptionKey) (n : Nat),
      ((k.consume n).1 = none ↔ k.length < k.bits_used + n) ∧
      ((k.consume n).1 = none → (k.consume n).2 = k) ∧
      (¬ k.length < k.bits_used + n →
        (k.consume n).1 = some ((k.bits.drop k.bits_used).take n) ∧
        (k.consume n).2.bits_used = k.bits_used + n ∧
        (k.consume n).2.bits = k.bits)) ∧
    ∀ (m : KeyManager) (n : Nat),
      (m.current_key = none →
        (m.consume_bits n).1 = none ∧ (m.consume_bits n).2 = m) ∧
      (m.mark_compromised.consume_bits n).1 = none ∧
      m.mark_compromised.current_key = none := by
  constructor
  · intro k n
    refine ⟨?_, ?_, ?_⟩
    · unfold EncryptionKey.consume
      by_cases h : k.length < k.bits_used + n <;> simp [h]
    · intro h
      unfold EncryptionKey.consume at h ⊢
      by_cases hc : k.length < k.bits_used + n
      · simp [hc]
      · simp [hc] at h
    · intro h
      unfold EncryptionKey.consume
      simp [h]
  · intro m n
    refine ⟨?_, ?_, rfl⟩
    · intro h
      unfold KeyManager.consume_bits
      rw [h]
      exact ⟨rfl, rfl⟩
    · unfold KeyManager.consume_bits
      rfl

/-- Fully consumed 3-bit test key (corresponding to the spec's key
exhaustion scenario) used to witness the consumption claim. -/
def exhaustedTestKey : EncryptionKey :=
  { seed_bits := [], seed_length := 0, bits := [1, 0, 1], length := 3,
    bits_used := 3, error_rate := 0 }

/-- C3 witness: a key of length 3 with all 3 bits consumed refuses a
further 1-bit request and stays unchanged, and a freshly initialized
(or compromised) manager refuses consumption. -/
theorem claim_C3_witness :
    ((exhaustedTestKey.consume 1).1 = none ↔
      exhaustedTestKey.length < exhaustedTestKey.bits_used + 1) ∧
    ((KeyManager.init.consume_bits 5).1 = none ∧
      (KeyManager.init.consume_bits 5).2 = KeyManager.init) ∧
    (KeyManager.init.mark_compromised.consume_bits 5).1 = none :=
  ⟨(claim_C3_consume.1 exhaustedTestKey 1).1,
   (claim_C3_consume.2 KeyManager.init 5).1 rfl,
   (claim_C3_consume.2 KeyManager.init 5).2.1⟩

end BB84

namespace BB84

/-- Appending one digit multiplies the accumulated value by the base and
adds the digit. -/
theorem bits_val_append (l : List Nat) (b : Nat) :
    bits_val (l ++ [b]) = 2 * bits_val l + b := by
  simp [bits_val, List.foldl_append]

/-- The digit string of `format(n, 'b')` evaluates back to `n`. -/
theorem bits_val_binDigits (n : Nat) : bits_val (binDigits n) = n := by
  induction n using binDigits.induct with
  | case1 n h =>
      rw [binDigits, dif_pos h]
      simp [bits_val]
  | case2 n h ih =>
      rw [binDigits, dif_neg h, bits_val_append, ih]
      omega

/-- Leading zero bits do not change the value. -/
theorem bits_val_replicate_zero (k : Nat) (l : List Nat) :
    bits_val (List.replicate k 0 ++ l) = bits_val l := by
  induction k with
  | zero => rfl
  | succ k ih => simpa [bits_val, List.replicate_succ] using ih

/-- A number below `2 ^ (k + 1)` has at most `k + 1` binary digits. -/
theorem binDigits_length_le (k : Nat) :
    ∀ c : Nat, c < 2 ^ (k + 1) → (binDigits c).length ≤ k + 1 := by
  induction k with
  | zero =>
      intro c hc
      rw [binDigits, dif_pos (by omega : c < 2)]
      simp
  | succ k ih =>
      intro c hc
      by_cases h : c < 2
      · rw [binDigits, dif_pos h]; simp
      · rw [binDigits, dif_neg h]
        have hpow : (2 : Nat) ^ (k + 2) = 2 * 2 ^ (k + 1) := by ring
        have hdiv : c / 2 < 2 ^ (k + 1) := by omega
        have := ih (c / 2) hdiv
        simp only [List.length_append, List.length_cons, List.length_nil]
        omega

/-- A Latin-1 character yields exactly 8 bits under
`format(ord(char), '08b')`. -/
theorem char_bits_length (c : Nat) (h : c ≤ 255) : (char_bits c).length = 8 := by
  have hlen := binDigits_length_le 7 c (by omega)
  simp only [char_bits, List.length_append, List.length_replicate]
  omega

/-- The 8-bit pattern of a character evaluates back to its code point. -/
theorem bits_val_char_bits (c : Nat) : bits_val (char_bits c) = c := by
  rw [char_bits, bits_val_replicate_zero, bits_val_binDigits]

/-- Unfolding `binary_to_text` on a list with at least one full byte. -/
theorem binary_to_text_step (bits : List Nat) (h : ¬ bits.length < 8) :
    binary_to_text bits = bits_val (bits.take 8) :: binary_to_text (bits.drop 8) := by
  rw [binary_to_text, dif_neg h]

/-- Unfolding `binary_to_text` on a trailing incomplete chunk. -/
theorem binary_to_text_short (bits : List Nat) (h : bits.length < 8) :
    binary_to_text bits = [] := by
  rw [binary_to_text, dif_pos h]

/-- C10: decoding after encoding returns the original string whenever
every character fits one byte (code point at most 255); the
precondition is necessary, since the two-byte character U+0100 encodes
to 9 bits and does not survive the round trip. -/
theorem claim_C10_round_trip :
    (∀ text : List Nat, (∀ c ∈ text, c ≤ 255) →
        binary_to_text (text_to_binary text) = text) ∧
    binary_to_text (text_to_binary [256]) ≠ [256] := by
  constructor
  · intro text hbound
    induction text with
    | nil => rw [text_to_binary]; simp [binary_to_text_short]
    | cons c t ih =>
        have hc : c ≤ 255 := hbound c (List.mem_cons_self c t)
        have hlen8 : (char_bits c).length = 8 := char_bits_length c hc
        have htb : text_to_binary (c :: t) = char_bits c ++ text_to_binary t := by
          simp [text_to_binary]
        rw [htb, binary_to_text_step _ (by simp [hlen8]),
          List.take_left' hlen8, List.drop_left' hlen8, bits_val_char_bits,
          ih (fun x hx => hbound x (List.mem_cons_of_mem c hx))]
  · have h256 : binDigits 256 = [1, 0, 0, 0, 0, 0, 0, 0, 0] := by
      simp [binDigits]
    have htb : text_to_binary [256] = [1, 0, 0, 0, 0, 0, 0, 0, 0] := by
      simp [text_to_binary, char_bits, h256]
    rw [htb, binary_to_text_step _ (by simp)]
    intro hcontra
    simp [bits_val, binary_to_text_short] at hcontra

/-- C10 witness: the round trip applied to the one-character string
with code point 97. -/
theorem claim_C10_witness : binary_to_text (text_to_binary [97]) = [97] :=
  claim_C10_round_trip.1 [97] (by simp)

end BB84

namespace BB84

/-- Appending one byte shifts the accumulated big-endian value. -/
theorem beVal_append (l : List Nat) (b : Nat) :
    beVal (l ++ [b]) = 256 * beVal l + b := by
  simp [beVal, List.foldl_append]

/-- Decoding inverts the big-endian encoding of a value that fits the
field. -/
theorem beVal_beBytes : ∀ (k x : Nat), x < 256 ^ k → beVal (beBytes k x) = x := by
  intro k
  induction k with
  | zero =>
      intro x hx
      interval_cases x
      rfl
  | succ k ih =>
      intro x hx
      have hpow : (256 : Nat) ^ (k + 1) = 256 ^ k * 256 := by ring
      have hdiv : x / 256 < 256 ^ k := by
        apply Nat.div_lt_of_lt_mul
        omega
      rw [beBytes, beVal_append, ih (x / 256) hdiv]
      omega

/-- C8: `pack_message` lays the frame out as the unsigned type byte, the
4-byte big-endian payload length, the 4-byte big-endian two's-complement
sequence and the payload bytes, and `unpack_header` recovers exactly
`(msg_type, payload_length, seq)` from it. -/
theorem claim_C8_pack_unpack :
    ∀ (msg_type : Nat) (payload_bytes : List Nat) (seq : Int),
      msg_type < 256 → payload_bytes.length < 4294967296 →
      -2147483648 ≤ seq → seq < 2147483648 →
      pack_message msg_type payload_bytes seq
          = some ([msg_type] ++ beBytes 4 payload_bytes.length ++
              beBytes 4 ((seq + 4294967296).toNat % 4294967296) ++ payload_bytes) ∧
      ∀ frame, pack_message msg_type payload_bytes seq = some frame →
        unpack_header frame = some (msg_type, payload_bytes.length, seq) ∧
        frame.length = HEADER_SIZE + payload_bytes.length ∧
        frame.drop HEADER_SIZE = payload_bytes := by
  intro t p s ht hp hs1 hs2
  have hpack : pack_message t p s
      = some ([t] ++ beBytes 4 p.length ++
          beBytes 4 ((s + 4294967296).toNat % 4294967296) ++ p) := by
    unfold pack_message
    rw [if_pos ⟨ht, hp, hs1, hs2⟩]
  refine ⟨hpack, ?_⟩
  intro frame hf
  rw [hpack] at hf
  obtain rfl : frame = [t] ++ beBytes 4 p.length ++
      beBytes 4 ((s + 4294967296).toNat % 4294967296) ++ p := by
    exact (Option.some_inj.mp hf).symm
  have hlenA : (beBytes 4 p.length).length = 4 := beBytes_length 4 _
  have hlenB : (beBytes 4 ((s + 4294967296).toNat % 4294967296)).length = 4 :=
    beBytes_length 4 _
  have hframe_len : ([t] ++ beBytes 4 p.length ++
      beBytes 4 ((s + 4294967296).toNat % 4294967296) ++ p).length
        = 9 + p.length := by
    simp only [List.length_append, List.length_cons, List.length_nil, hlenA, hlenB]
  have hassoc : [t] ++ beBytes 4 p.length ++
      beBytes 4 ((s + 4294967296).toNat % 4294967296) ++ p
        = t :: (beBytes 4 p.length ++
            (beBytes 4 ((s + 4294967296).toNat % 4294967296) ++ p)) := by
    simp [List.append_assoc]
  refine ⟨?_, by simpa [HEADER_SIZE] using hframe_len, ?_⟩
  · unfold unpack_header
    rw [if_neg (by rw [hframe_len]; simp only [HEADER_SIZE]; omega)]
    have hgetD : ([t] ++ beBytes 4 p.length ++
        beBytes 4 ((s + 4294967296).toNat % 4294967296) ++ p).getD 0 0 = t := by
      rw [hassoc]; rfl
    have hdrop1 : ([t] ++ beBytes 4 p.length ++
        beBytes 4 ((s + 4294967296).toNat % 4294967296) ++ p).drop 1
          = beBytes 4 p.length ++
            (beBytes 4 ((s + 4294967296).toNat % 4294967296) ++ p) := by
      rw [hassoc]; rfl
    have htake4 : (beBytes 4 p.length ++
        (beBytes 4 ((s + 4294967296).toNat % 4294967296) ++ p)).take 4
          = beBytes 4 p.length := List.take_left' hlenA
    have hdrop5 : ([t] ++ beBytes 4 p.length ++
        beBytes 4 ((s + 4294967296).toNat % 4294967296) ++ p).drop 5
          = beBytes 4 ((s + 4294967296).toNat % 4294967296) ++ p := by
      rw [hassoc]
      show (beBytes 4 p.length ++
        (beBytes 4 ((s + 4294967296).toNat % 4294967296) ++ p)).drop 4
          = beBytes 4 ((s + 4294967296).toNat % 4294967296) ++ p
      exact List.drop_left' hlenA
    have htakeB : (beBytes 4 ((s + 4294967296).toNat % 4294967296) ++ p).take 4
        = beBytes 4 ((s + 4294967296).toNat % 4294967296) := List.take_left' hlenB
    rw [hgetD, hdrop1, htake4, hdrop5, htakeB]
    rw [beVal_beBytes 4 p.length (by norm_num; omega),
      beVal_beBytes 4 ((s + 4294967296).toNat % 4294967296) (by norm_num; omega)]
    show some (t, p.length,
        if (s + 4294967296).toNat % 4294967296 < 2147483648
        then (((s + 4294967296).toNat % 4294967296 : Nat) : Int)
        else (((s + 4294967296).toNat % 4294967296 : Nat) : Int) - 4294967296)
      = some (t, p.length, s)
    by_cases hcase : (s + 4294967296).toNat % 4294967296 < 2147483648
    · rw [if_pos hcase]
      have hval : (((s + 4294967296).toNat % 4294967296 : Nat) : Int) = s := by omega
      rw [hval]
    · rw [if_neg hcase]
      have hval : (((s + 4294967296).toNat % 4294967296 : Nat) : Int) - 4294967296 = s := by
        omega
      rw [hval]
  · show ([t] ++ beBytes 4 p.length ++
        beBytes 4 ((s + 4294967296).toNat % 4294967296) ++ p).drop 9 = p
    rw [hassoc]
    show (beBytes 4 p.length ++
        (beBytes 4 ((s + 4294967296).toNat % 4294967296) ++ p)).drop 8 = p
    rw [List.drop_append_eq_append_drop, List.drop_eq_nil_of_le (by rw [hlenA]; omega),
      hlenA]
    simp [List.drop_left' hlenB]

end BB84

namespace BB84

/-- C8 witness: a concrete frame with type 1, empty payload and the
negative sequence number -1 round-trips through the header. -/
theorem claim_C8_witness :
    pack_message 1 [] (-1) = some [1, 0, 0, 0, 0, 255, 255, 255, 255] ∧
    unpack_header [1, 0, 0, 0, 0, 255, 255, 255, 255] = some (1, 0, -1) := by
  have h := claim_C8_pack_unpack 1 [] (-1) (by norm_num) (by norm_num) (by norm_num)
    (by norm_num)
  have hpack : pack_message 1 [] (-1) = some [1, 0, 0, 0, 0, 255, 255, 255, 255] := by
    rw [h.1]; rfl
  exact ⟨hpack, (h.2 _ hpack).1⟩

end BB84

namespace BB84

/-- The expansion loop stops at exactly `length` collected bits. -/
theorem expand_loop_length (sb : List Nat) (L : Nat) :
    ∀ (counter : Nat) (prev acc : List Nat),
      acc.length ≤ L → (expand_loop sb L counter prev acc).length = L := by
  intro counter prev acc
  induction counter, prev, acc using expand_loop.induct sb L with
  | case1 counter prev acc hlt block ih =>
      intro hle
      rw [expand_loop, dif_pos hlt]
      exact ih (by simp only [List.length_append, List.length_take]; omega)
  | case2 counter prev acc hge =>
      intro hle
      rw [expand_loop, dif_neg hge]
      omega

/-- Each entry extracted by `(byte >> i) & 1` is a bit. -/
theorem byteBits_lt_two (x : Nat) : ∀ b ∈ byteBits x, b < 2 := by
  intro b hb
  simp only [byteBits, List.mem_cons, List.not_mem_nil, or_false] at hb
  rcases hb with rfl | rfl | rfl | rfl | rfl | rfl | rfl | rfl <;>
    exact lt_of_le_of_lt Nat.and_le_right (by norm_num)

/-- Every entry produced by the expansion loop is a bit. -/
theorem expand_loop_bits (sb : List Nat) (L : Nat) :
    ∀ (counter : Nat) (prev acc : List Nat),
      (∀ b ∈ acc, b < 2) → ∀ b ∈ expand_loop sb L counter prev acc, b < 2 := by
  intro counter prev acc
  induction counter, prev, acc using expand_loop.induct sb L with
  | case1 counter prev acc hlt block ih =>
      intro hacc
      rw [expand_loop, dif_pos hlt]
      refine ih ?_
      intro b hb
      rcases List.mem_append.mp hb with hmem | hmem
      · exact hacc b hmem
      · obtain ⟨x, _, hx⟩ := List.mem_flatMap.mp (List.take_subset _ _ hmem)
        exact byteBits_lt_two x b hx
  | case2 counter prev acc hge =>
      intro hacc
      rw [expand_loop, dif_neg hge]
      exact hacc

/-- `expand_key_bits` returns exactly the requested number of bits. -/
theorem expand_key_bits_length (seed_bits : List Nat) (L : Nat) :
    (expand_key_bits seed_bits L).length = L := by
  rw [expand_key_bits, List.length_take,
    expand_loop_length _ _ _ _ _ (by simp)]
  simp

/-- `expand_key_bits` returns only bits. -/
theorem expand_key_bits_bits (seed_bits : List Nat) (L : Nat) :
    ∀ b ∈ expand_key_bits seed_bits L, b < 2 := by
  intro b hb
  rw [expand_key_bits] at hb
  exact expand_loop_bits _ _ _ _ _ (by simp) b (List.take_subset _ _ hb)

/-- C9: the key installed by `set_key` carries exactly 1024 expanded
keystream bits regardless of the seed length, with the cursor at 0 and
every entry a bit, and the expanded keystream is a deterministic
function of the seed bits. -/
theorem claim_C9_set_key :
    ∀ (m : KeyManager) (seed_bits : List Nat) (error_rate : ℚ), seed_bits ≠ [] →
      (m.set_key seed_bits error_rate).1.current_key
          = some (m.set_key seed_bits error_rate).2 ∧
      (m.set_key seed_bits error_rate).2.bits.length = 1024 ∧
      (m.set_key seed_bits error_rate).2.length = 1024 ∧
      (m.set_key seed_bits error_rate).2.bits_used = 0 ∧
      (∀ b ∈ (m.set_key seed_bits error_rate).2.bits, b < 2) ∧
      ∀ (m2 : KeyManager) (er2 : ℚ) (seed2 : List Nat), seed2 = seed_bits →
        (m2.set_key seed2 er2).2.bits = (m.set_key seed_bits error_rate).2.bits := by
  intro m seed er _
  refine ⟨rfl, ?_, ?_, rfl, ?_, ?_⟩
  · exact expand_key_bits_length seed EXPANDED_KEY_BITS
  · exact expand_key_bits_length seed EXPANDED_KEY_BITS
  · exact expand_key_bits_bits seed EXPANDED_KEY_BITS
  · intro m2 er2 seed2 hseed
    rw [hseed]
    rfl

/-- C9 witness: the claim applied to a fresh manager and the seed
`[1, 0, 1]`. -/
theorem claim_C9_witness :
    (KeyManager.init.set_key [1, 0, 1] 0).1.current_key
        = some (KeyManager.init.set_key [1, 0, 1] 0).2 ∧
    (KeyManager.init.set_key [1, 0, 1] 0).2.bits.length = 1024 ∧
    (KeyManager.init.set_key [1, 0, 1] 0).2.length = 1024 ∧
    (KeyManager.init.set_key [1, 0, 1] 0).2.bits_used = 0 ∧
    (∀ b ∈ (KeyManager.init.set_key [1, 0, 1] 0).2.bits, b < 2) ∧
    ∀ (m2 : KeyManager) (er2 : ℚ) (seed2 : List Nat), seed2 = [1, 0, 1] →
      (m2.set_key seed2 er2).2.bits = (KeyManager.init.set_key [1, 0, 1] 0).2.bits :=
  claim_C9_set_key KeyManager.init [1, 0, 1] 0 (by simp)

end BB84

namespace BB84

/-- C4 (amended): the interactive exchange installs no key when the
exchange is degenerate — in particular zero matching positions always
abort it — but its only guard is `final key length < 1`: whenever it
completes, the final key is merely nonempty and is installed in both
key managers (even when shorter than `MIN_KEY_LENGTH`). -/
theorem claim_C4_exchange_key_guard :
    ∀ (send_km recv_km : KeyManager) (num : Nat)
      (alice_bits alice_bases bob_bases : List Nat)
      (sample_draw : Nat → Nat → List Nat),
      (find_matching_positions alice_bases bob_bases = [] →
        interactive_key_exchange_alice send_km recv_km num alice_bits alice_bases
          bob_bases sample_draw = none) ∧
      ∀ r, interactive_key_exchange_alice send_km recv_km num alice_bits alice_bases
            bob_bases sample_draw = some r →
        1 ≤ r.final_key.length ∧
        r.send_km.current_key = some (send_km.set_key r.final_key 0).2 ∧
        r.recv_km.current_key = some (recv_km.set_key r.final_key 0).2 := by
  intro send_km recv_km num alice_bits alice_bases bob_bases sample_draw
  constructor
  · intro h
    by_cases hnum : num = 0 <;>
      simp [interactive_key_exchange_alice, h, hnum, extract_key_bits,
        remove_sample_bits]
  · intro r hr
    simp only [interactive_key_exchange_alice] at hr
    split at hr
    · exact absurd hr (by simp)
    · split at hr
      · exact absurd hr (by simp)
      · rename_i hnum hlen
        obtain rfl := Option.some_inj.mp hr
        exact ⟨Nat.not_lt.mp hlen, rfl, rfl⟩

/-- C4 witness: an exchange with no matching bases aborts without
installing a key. -/
theorem claim_C4_witness :
    interactive_key_exchange_alice KeyManager.init KeyManager.init 4 [0, 0] [0, 1]
      [1, 0] (fun _ k => List.range k) = none :=
  (claim_C4_exchange_key_guard KeyManager.init KeyManager.init 4 [0, 0] [0, 1] [1, 0]
    (fun _ k => List.range k)).1 (by decide)

/-- C4 counterexample to the claim as stated: a 16-photon interactive
exchange whose bases all match produces a final key of 15 bits — below
the minimum acceptable key length `MIN_KEY_LENGTH = 32` — yet a key is
installed in the key manager. -/
theorem claim_C4_counterexample :
    MIN_KEY_LENGTH = 32 ∧
    (interactive_key_exchange_alice KeyManager.init KeyManager.init 16
        (List.replicate 16 1) (List.replicate 16 0) (List.replicate 16 0)
        (fun _ k => List.range k)).map
      (fun r => (r.final_key.length, r.send_km.current_key.isSome)) = some (15, true) := by
  refine ⟨rfl, ?_⟩
  have hss : sample_size 16 SAMPLE_FRACTION = 1 := by
    rw [sample_size, SAMPLE_FRACTION, mul_one_div, Int.floor_toNat,
      Nat.floor_div_ofNat, Nat.floor_natCast]
    decide
  have hmatch : find_matching_positions (List.replicate 16 0) (List.replicate 16 0)
      = List.range 16 := by decide
  have hraw : extract_key_bits (List.replicate 16 1) (List.range 16)
      = List.replicate 16 1 := by decide
  have hpos : (check_errors (List.replicate 16 1) (List.replicate 16 1)
      SAMPLE_FRACTION (fun _ k => List.range k)).2.1 = [0] := by
    rw [check_errors_sample_eq]
    have hlen : (List.replicate (α := Nat) 16 1).length = 16 := by decide
    rw [hlen, hss]
    decide
  have hfinal : remove_sample_bits (List.replicate 16 1) [0]
      = List.replicate 15 1 := by decide
  simp only [interactive_key_exchange_alice, hmatch, hraw, hpos, hfinal]
  norm_num [KeyManager.set_key]

end BB84

namespace BB84

/-- A successfully encoded photon carries exactly the encoded bit and
basis. -/
theorem encode_photon_fields (b x : Nat) (p : Photon)
    (h : encode_photon b x = some p) : p.bit = b ∧ p.basis = x := by
  unfold encode_photon at h
  cases hA : ANGLES b x <;> rw [hA] at h
  · simp at h
  · simp at h
    subst h
    exact ⟨rfl, rfl⟩

/-- Elementwise description of a successful `mapM` encoding run over
zipped bit/basis pairs (out-of-range lookups agree on the defaults). -/
theorem mapM_encode_spec :
    ∀ (l : List (Nat × Nat)) (ps : List Photon),
      l.mapM (fun q => encode_photon q.1 q.2) = some ps →
      ps.length = l.length ∧
      ∀ i, (ps.getD i ⟨0, 0, 0⟩).bit = (l.getD i (0, 0)).1 ∧
           (ps.getD i ⟨0, 0, 0⟩).basis = (l.getD i (0, 0)).2 := by
  intro l
  induction l with
  | nil =>
      intro ps h
      obtain rfl : ps = [] := by
        have h0 : some ([] : List Photon) = some ps := h
        exact (Option.some_inj.mp h0).symm
      exact ⟨rfl, fun i => ⟨rfl, rfl⟩⟩
  | cons q t ih =>
      intro ps h
      rw [List.mapM_cons] at h
      obtain ⟨p, hp, hrest⟩ := Option.bind_eq_some.mp h
      obtain ⟨ps', hps', hcons⟩ := Option.bind_eq_some.mp hrest
      obtain rfl : p :: ps' = ps := Option.some_inj.mp hcons
      obtain ⟨hlen, hfield⟩ := ih ps' hps'
      obtain ⟨hbit, hbasis⟩ := encode_photon_fields q.1 q.2 p hp
      refine ⟨by simp [hlen], ?_⟩
      intro i
      cases i with
      | zero => exact ⟨hbit, hbasis⟩
      | succ j => simpa using hfield j

/-- Number of measured bits. -/
theorem measure_photons_length (photons : List Photon) (bases : List Nat)
    (coins : Nat → Nat) :
    (measure_photons photons bases coins).length
      = min photons.length bases.length := by
  simp [measure_photons]

/-- The bit measured at an in-range position `i`. -/
theorem measure_photons_getD (photons : List Photon) (bases : List Nat)
    (coins : Nat → Nat) (i : Nat) (h1 : i < photons.length) (h2 : i < bases.length) :
    (measure_photons photons bases coins).getD i 0
      = measure_photon (photons.getD i ⟨0, 0, 0⟩) (bases.getD i 0) (coins i) := by
  have hm : i < (measure_photons photons bases coins).length := by
    rw [measure_photons_length]; omega
  have hz : i < (photons.zip bases).length := by
    rw [List.length_zip]; omega
  have he : i < (photons.zip bases).enum.length := by
    rw [List.enum_length]; omega
  rw [List.getD_eq_getElem _ _ hm, List.getD_eq_getElem _ _ h1,
    List.getD_eq_getElem _ _ h2]
  have hm2 : i < ((photons.zip bases).enum.map
      (fun p => measure_photon p.2.1 p.2.2 (coins p.1))).length := hm
  show ((photons.zip bases).enum.map
      (fun p => measure_photon p.2.1 p.2.2 (coins p.1)))[i] = _
  rw [List.getElem_map]
  congr 1 <;> rw [List.getElem_enum] <;> simp [List.getElem_zip]

/-- Comparing a sample with itself yields no mismatches. -/
theorem zip_self_filter_ne (l : List Nat) :
    (l.zip l).filter (fun p => p.1 != p.2) = [] := by
  induction l with
  | nil => rfl
  | cons a t ih => simpa [List.filter] using ih

/-- Specialization of the sample size to the configured fraction 0.10:
it is `max(1, n / 10)`. -/
theorem sample_size_tenth (m : Nat) :
    sample_size m SAMPLE_FRACTION = max 1 (m / 10) := by
  rw [sample_size, SAMPLE_FRACTION, mul_one_div, Int.floor_toNat,
    Nat.floor_div_ofNat, Nat.floor_natCast]

end BB84

namespace BB84

/-- C1 (amended): in every completed no-eavesdropper run of
`bb84_simulate` — over all random draws of bits, bases, measurement
coins and sample positions — the error rate is 0 and the two final keys
are identical; the final key is nonempty whenever at least two
positions had matching bases (with 256 photons this fails only for the
astronomically unlikely draws with fewer than two basis matches, so the
spec's `finalKeyLength > 0` is a statistical property of the 256-photon
run, not a universal one). -/
theorem claim_C1_no_eve :
    ∀ (num_photons : Nat) (alice_bits alice_bases bob_bases : List Nat)
      (coins : Nat → Nat) (sample_draw : Nat → Nat → List Nat),
      alice_bits.length = num_photons → alice_bases.length = num_photons →
      bob_bases.length = num_photons → SampleDrawOK sample_draw →
      (bb84_simulate num_photons alice_bits alice_bases bob_bases coins sample_draw
          false none).elim True (fun r =>
        r.error_rate = 0 ∧ r.alice_final_key = r.bob_final_key ∧
        (2 ≤ r.matching_positions.length → 0 < r.final_key_length)) := by
  intro n abits abases bbases coins draw ha hb hc hdraw
  cases hsim : bb84_simulate n abits abases bbases coins draw false none with
  | none => exact trivial
  | some r =>
      simp only [Option.elim]
      unfold bb84_simulate at hsim
      obtain ⟨ps, hps, hrest⟩ := Option.bind_eq_some.mp hsim
      split at hrest
      rename_i transmitted eb ebs heq
      obtain ⟨hte, rfl, rfl⟩ : transmitted = ps ∧ eb = none ∧ ebs = none := by
        have heq2 : (ps, (none : Option (List Nat)), (none : Option (List Nat)))
            = (transmitted, eb, ebs) := heq
        simpa using heq2.symm
      obtain rfl := hte.symm
      split at hrest
      · exact absurd hrest (by simp)
      · rename_i hn
        obtain ⟨hpslen, hpsfield⟩ := mapM_encode_spec (abits.zip abases) ps hps
        have hpslen2 : ps.length = n := by
          rw [hpslen, List.length_zip]; omega
        have hab : extract_key_bits abits (find_matching_positions abases bbases)
            = extract_key_bits (measure_photons ps bbases coins)
                (find_matching_positions abases bbases) := by
          unfold extract_key_bits
          apply List.map_congr_left
          intro i hiM
          obtain ⟨hiA, hieq⟩ := (mem_find_matching_positions abases bbases i).mp hiM
          have hin : i < n := by omega
          rw [measure_photons_getD ps bbases coins i (by omega) (by omega)]
          have hf := hpsfield i
          have hzl : i < (abits.zip abases).length := by
            rw [List.length_zip]; omega
          have hzA : i < abits.length := by omega
          have hzB : i < abases.length := by omega
          have hzip : (abits.zip abases).getD i (0, 0)
              = (abits.getD i 0, abases.getD i 0) := by
            rw [List.getD_eq_getElem (abits.zip abases) (0, 0) hzl,
              List.getD_eq_getElem abits 0 hzA, List.getD_eq_getElem abases 0 hzB]
            simp [List.getElem_zip]
          rw [hzip] at hf
          unfold measure_photon
          rw [hf.2, hf.1, hieq, if_pos rfl]
        set M := find_matching_positions abases bbases with hM
        set araw := extract_key_bits abits M with haraw
        set braw := extract_key_bits (measure_photons ps bbases coins) M with hbraw
        have hER : r.error_rate = (check_errors araw braw SAMPLE_FRACTION draw).1 := by
          have h := congrArg (Option.map SimResult.error_rate) hrest
          have h2 : some ((check_errors araw braw SAMPLE_FRACTION draw).1)
              = some r.error_rate := h
          exact (Option.some_inj.mp h2).symm
        have hAF : r.alice_final_key
            = remove_sample_bits araw
                (check_errors araw braw SAMPLE_FRACTION draw).2.1 := by
          have h := congrArg (Option.map SimResult.alice_final_key) hrest
          have h2 : some (remove_sample_bits araw
              (check_errors araw braw SAMPLE_FRACTION draw).2.1)
              = some r.alice_final_key := h
          exact (Option.some_inj.mp h2).symm
        have hBF : r.bob_final_key
            = remove_sample_bits braw
                (check_errors araw braw SAMPLE_FRACTION draw).2.1 := by
          have h := congrArg (Option.map SimResult.bob_final_key) hrest
          have h2 : some (remove_sample_bits braw
              (check_errors araw braw SAMPLE_FRACTION draw).2.1)
              = some r.bob_final_key := h
          exact (Option.some_inj.mp h2).symm
        have hMP : r.matching_positions = M := by
          have h := congrArg (Option.map SimResult.matching_positions) hrest
          have h2 : some M = some r.matching_positions := h
          exact (Option.some_inj.mp h2).symm
        have hFL : r.final_key_length
            = (remove_sample_bits araw
                (check_errors araw braw SAMPLE_FRACTION draw).2.1).length := by
          have h := congrArg (Option.map SimResult.final_key_length) hrest
          have h2 : some ((remove_sample_bits araw
              (check_errors araw braw SAMPLE_FRACTION draw).2.1).length)
              = some r.final_key_length := h
          exact (Option.some_inj.mp h2).symm
        obtain ⟨hsorted, hnd, hsize, hbound⟩ :=
          check_errors_positions_spec araw braw SAMPLE_FRACTION draw hdraw
        have hrawlen : araw.length = M.length := by
          rw [haraw]; unfold extract_key_bits; simp
        refine ⟨?_, ?_, ?_⟩
        · rw [hER, check_errors_rate, check_errors_alice_sample,
            check_errors_bob_sample, hab]
          rw [zip_self_filter_ne]
          split <;> simp
        · rw [hAF, hBF, hab]
        · intro hM2
          rw [hMP] at hM2
          rw [hFL, remove_sample_bits_length araw _ hnd hbound, hsize,
            sample_size_tenth, hrawlen]
          have hdivlt : M.length / 10 < M.length :=
            Nat.div_lt_self (by omega) (by norm_num)
          omega

/-- C1 witness: a completed 2-photon run with all bases matching. -/
theorem claim_C1_witness :
    (bb84_simulate 2 [0, 1] [0, 1] [0, 1] (fun _ => 0)
        (fun _ k => List.range k) false none).elim True (fun r =>
      r.error_rate = 0 ∧ r.alice_final_key = r.bob_final_key ∧
      (2 ≤ r.matching_positions.length → 0 < r.final_key_length)) :=
  claim_C1_no_eve 2 [0, 1] [0, 1] [0, 1] (fun _ => 0) (fun _ k => List.range k)
    rfl rfl rfl range_sampleDrawOK

set_option maxRecDepth 16384 in
/-- C1 counterexample to the claim as stated: a valid 256-photon run
with no interception in which none of Bob's random bases match Alice's
still has error rate 0 and equal (empty) final keys, but its
`final_key_length` is 0, not positive. -/
theorem claim_C1_counterexample :
    NUM_PHOTONS = 256 ∧
    (bb84_simulate 256 (List.replicate 256 0) (List.replicate 256 0)
        (List.replicate 256 1) (fun _ => 0) (fun _ k => List.range k) false none).map
      (fun r => (r.error_rate, r.alice_final_key, r.bob_final_key, r.final_key_length))
      = some (0, [], [], 0) := by
  refine ⟨rfl, ?_⟩
  have hencode : encode_photons (List.replicate 256 0) (List.replicate 256 0)
      = some (List.replicate 256 ⟨0, 0, 0⟩) := by decide
  have hmatch : find_matching_positions (List.replicate 256 0) (List.replicate 256 1)
      = [] := by decide
  have hce : check_errors [] [] SAMPLE_FRACTION (fun _ k => List.range k)
      = (0, [], [], []) := by
    simp [check_errors, Nat.min_zero]
  simp only [bb84_simulate, hencode, hmatch, Option.bind_eq_bind, Option.some_bind,
    extract_key_bits, List.map_nil]
  rw [hce]
  simp [remove_sample_bits]

end BB84
